import Mathlib

/-!
# Glycanaut: verification of the spectral-analysis core

A shallow embedding of the glycanaut repository (`glycanaut/utils/analysis.py`,
`glycanaut/utils/mono.py`, `glycanaut/utils/plotting.py`) in Lean 4.

Modelling conventions:
* pandas `DataFrame`s become Lean lists of structures; a column holding floats
  becomes a `ℚ` field (the source's algorithms only compare, add and subtract,
  so exact rationals track the algebra of the comparisons exactly);
* pandas in-place mutation (`set_index(..., inplace=True)`) is modelled by
  explicit state passing: functions that mutate their argument return the
  post-call state of that argument as part of their result;
* Python exceptions (`KeyError`, networkx `NetworkXNoPath`, `ValueError`)
  become `Except String`;
* `df.loc[i, col] = v` row updates become functional record updates.
-/

set_option allowUnsafeReducibility true

attribute [semireducible] Rat.add Rat.sub Rat.mul Rat.div Rat.neg Rat.inv

namespace Glycanaut

/-! ## Generic list helpers (pandas / itertools primitives) -/

/-- Maximum of a column, as pandas `Series.max` on a nonempty column
(the empty case is never consulted by the call sites, which guard emptiness). -/
def colMax : List ℚ → ℚ
  | [] => 0
  | x :: xs => xs.foldl max x

/-- Minimum of a column, as pandas `Series.min` on a nonempty column
(the empty case is never consulted by the call sites, which guard emptiness). -/
def colMin : List ℚ → ℚ
  | [] => 0
  | x :: xs => xs.foldl min x

/-- pandas `Series.unique`: distinct values in order of first occurrence. -/
def uniqueFirstAux [DecidableEq α] : List α → List α → List α
  | _, [] => []
  | seen, x :: xs =>
    if x ∈ seen then uniqueFirstAux seen xs else x :: uniqueFirstAux (x :: seen) xs

/-- pandas `Series.unique`: distinct values in order of first occurrence. -/
def uniqueFirst [DecidableEq α] (l : List α) : List α :=
  uniqueFirstAux [] l

/-- `itertools.combinations(xs, 2)`: all unordered pairs, each in column order. -/
def combinations2 : List ℚ → List (ℚ × ℚ)
  | [] => []
  | x :: xs => xs.map (fun y => (x, y)) ++ combinations2 xs

/-- Non-empty suffixes of a list, longest first. -/
def listSuffixes : List α → List (List α)
  | [] => []
  | x :: xs => (x :: xs) :: listSuffixes xs

/-- `itertools.combinations_with_replacement(l, r)` (index order matches
itertools: non-decreasing positions, lexicographic). Structurally recursive in
`r` so that concrete runs reduce in the kernel. -/
def cwr : ℕ → List α → List (List α)
  | 0, _ => [[]]
  | r + 1, l =>
    (listSuffixes l).flatMap
      (fun s => match s with
        | [] => []
        | x :: xs => (cwr r (x :: xs)).map (fun t => x :: t))

/-- Stable insertion into an ascending-by-key list. -/
def insertByKey (key : α → ℚ) (x : α) : List α → List α
  | [] => [x]
  | y :: ys => if key y < key x then y :: insertByKey key x ys else x :: y :: ys

/-- Deterministic stable sort ascending by key, modelling
`DataFrame.sort_values`. -/
def sortByKey (key : α → ℚ) : List α → List α
  | [] => []
  | x :: xs => insertByKey key x (sortByKey key xs)

/-! ## Data model -/

/-- One row of the uploaded peak table after column renaming: `m/z` and
`Intensity`. -/
structure Peak where
  mz : ℚ
  intensity : ℚ
deriving DecidableEq, Repr

/-- One row of the preprocessed peak table: `prune_isotopes` adds the
`Charge State` column, which stays unset (`none`, pandas `NaN`) for rows the
writing loop never reaches. -/
structure PPeak where
  mz : ℚ
  intensity : ℚ
  chargeState : Option ℕ
deriving DecidableEq, Repr

/-- One row of the monosaccharide reference table (`df_mono`): columns
`Name`, `Symbol`, `m/z`, `Symbol Description`, `Ion Type`, `Type`. -/
structure RefEntry where
  name : String
  symbol : String
  mz : ℚ
  symbolDescription : String
  ionType : String
  type : String
deriving DecidableEq, Repr

/-- The `df_mono` DataFrame together with its index state.
`indexIsName = true` after `set_index("Name", inplace=True)` has moved the
`Name` column into the index; `generate_polysaccharides` performs that
mutation in place, which is why the table's state must be threaded
explicitly. -/
structure MonoTable where
  indexIsName : Bool
  rows : List RefEntry
deriving DecidableEq, Repr

/-- One row of the peak-difference table built by `analyse_spectrum`. -/
structure DiffRec where
  peak1 : ℚ
  peak2 : ℚ
  peakDifference : ℚ
  assignedMass : ℚ
  assigned : String
  assignedSymbol : String
  ionType : String
  type : String
  length : ℕ
deriving DecidableEq, Repr

/-- A row of the unassigned table after `analyse_spectrum` drops the
assignment columns: only `Peak 1`, `Peak 2`, `Peak Difference` remain. -/
structure UDiffRec where
  peak1 : ℚ
  peak2 : ℚ
  peakDifference : ℚ
deriving DecidableEq, Repr

/-- Column projection performed by the `df_diffs_unassigned.drop(columns=...)`
call in `analyse_spectrum`. -/
def toUDiffRec (r : DiffRec) : UDiffRec :=
  ⟨r.peak1, r.peak2, r.peakDifference⟩

/-- One generated polysaccharide row (`generate_polysaccharides` output). -/
structure PolyEntry where
  name : String
  symbol : String
  mz : ℚ
  symbolDescription : String
  ionType : String
  plen : ℕ
  type : String
deriving DecidableEq, Repr

/-! ## Peak preprocessing (`threshold_peaks`, `prune_isotopes`,
`preprocess_data`) -/

/-- `threshold_peaks`: keep peaks with intensity strictly above
`threshold * 0.01 * max(intensity)`, then keep peaks with `m/z` inside the
inclusive range. (The positional `index` column added by `reset_index()` is
not modelled; it is dropped again downstream without being read.) -/
def threshold_peaks (peaks : List Peak) (threshold lo hi : ℚ) : List Peak :=
  match peaks with
  | [] => []
  | p0 :: rest =>
    let maxIntensity := rest.foldl (fun acc q => max acc q.intensity) p0.intensity
    ((p0 :: rest).filter
        (fun p => decide (threshold * (1 / 100) * maxIntensity < p.intensity))).filter
      (fun p => decide (lo ≤ p.mz ∧ p.mz ≤ hi))

/-- The inner `while` loop of `prune_isotopes`: starting at row `i + 1` of the
sorted `m/z` column `s`, collect successive row indices while
`|s[i] - s[j]| < isotope_tol`. -/
def scanFrom (s : List ℚ) (tol : ℚ) (i : ℕ) : List ℕ :=
  (List.range' (i + 1) (s.length - (i + 1))).takeWhile
    (fun j => decide (|s.getD i 0 - s.getD j 0| < tol))

/-- The `diffs` list collected by the same inner loop: the distance from the
head row `i` to each scanned row (the source records `|s[i] - s[j]|`, measured
from the head, not successive gaps). -/
def clusterDiffs (s : List ℚ) (tol : ℚ) (i : ℕ) : List ℚ :=
  (scanFrom s tol i).map (fun j => |s.getD i 0 - s.getD j 0|)

/-- The `to_drop` list: every row index scanned by some outer iteration
`i ∈ range(len - 1)` (duplicates are harmless; `drop` removes by label). -/
def toDropList (s : List ℚ) (tol : ℚ) : List ℕ :=
  (List.range (s.length - 1)).flatMap (fun i => scanFrom s tol i)

/-- The `matches` list of `prune_isotopes`: candidate charge states
`z ∈ {1..5}` for which every recorded cluster distance is within `1e-3` of
`1/z`. -/
def chargeCandidates (ds : List ℚ) : List ℕ :=
  (List.range' 1 5).filter
    (fun z => ds.all (fun d => decide (|1 / (z : ℚ) - d| ≤ 1 / 1000)))

/-- `df.loc[i, "Charge State"]` as written by `prune_isotopes`:
`1 if not matches else matches[0]`. -/
def chargeOf (s : List ℚ) (tol : ℚ) (i : ℕ) : ℕ :=
  (chargeCandidates (clusterDiffs s tol i)).headD 1

/-- `prune_isotopes`: sort by `m/z`, scan forward from every row `i` in
`range(len - 1)` collecting rows within `isotope_tol` of row `i` into
`to_drop`, write row `i`'s charge state, and finally drop the collected rows.
Rows at the last sorted position are outside the writing loop's range, so
their `Charge State` stays unset. -/
def prune_isotopes (peaks : List Peak) (tol : ℚ) : List PPeak :=
  let s := sortByKey Peak.mz peaks
  let mzs := s.map Peak.mz
  let drops := toDropList mzs tol
  s.enum.filterMap fun ip =>
    if ip.1 ∈ drops then none
    else some
      { mz := ip.2.mz, intensity := ip.2.intensity,
        chargeState := if ip.1 + 1 < s.length then some (chargeOf mzs tol ip.1) else none }

/-- `preprocess_data`: threshold/range filter, then isotope collapsing. -/
def preprocess_data (peaks : List Peak) (threshold lo hi tol : ℚ) : List PPeak :=
  prune_isotopes (threshold_peaks peaks threshold lo hi) tol

/-! ## Reference builder (`mono.py`) -/

/-- `H20_MASS = 18.010565`. -/
def waterMass : ℚ := 18010565 / 1000000

/-- Round to nearest integer, ties to even (numpy / pandas `round`
semantics used by `Series.round`). -/
def roundHalfEven (x : ℚ) : ℤ :=
  let f := ⌊x⌋
  if x - f < 1 / 2 then f
  else if 1 / 2 < x - f then f + 1
  else if f % 2 = 0 then f else f + 1

/-- `Series.round(2)`. -/
def round2 (x : ℚ) : ℚ :=
  (roundHalfEven (x * 100) : ℚ) / 100

/-- The fixed `MODS` table of `mono.py`. The source sets a lowercase `type`
column on these rows; the capitalised `Type` column read downstream is absent
for them after `pd.concat` (pandas `NaN`), modelled here as the string
`"nan"`. -/
def MODS : List RefEntry :=
  [ { name := "Acetylation", symbol := "Ac", mz := 420106 / 10000,
      symbolDescription := "Modification", ionType := "", type := "nan" },
    { name := "Methylation", symbol := "Me", mz := 140157 / 10000,
      symbolDescription := "Modification", ionType := "", type := "nan" },
    { name := "Phosphorylation", symbol := "Ph", mz := 799663 / 10000,
      symbolDescription := "Modification", ionType := "", type := "nan" },
    { name := "Sulfonation", symbol := "Su", mz := 799568 / 10000,
      symbolDescription := "Modification", ionType := "", type := "nan" } ]

/-- `make_b_y_df_mono`: duplicate every reference row into a B variant (mass
unchanged) and a Y variant (mass plus one water, rounded to 2 decimals), with
suffixed names/symbols; the result is a fresh frame (B rows then Y rows,
`ignore_index=True`). -/
def make_b_y_df_mono (m : MonoTable) : MonoTable :=
  let bRows := m.rows.map (fun e =>
    { e with symbol := e.symbol ++ " ᵇ", name := e.name ++ " (B)", ionType := "B" })
  let yRows := m.rows.map (fun e =>
    { e with mz := round2 (e.mz + waterMass),
             symbol := e.symbol ++ " ʸ", name := e.name ++ " (Y)", ionType := "Y" })
  { indexIsName := false, rows := bRows ++ yRows }

/-! ## Difference engine (`analyse_spectrum`, per-pair matching) -/

/-- `df_mono["m/z"].min()`: `none` models the pandas `NaN` minimum of an empty
column (every comparison against it is false). -/
def minMass (rows : List RefEntry) : Option ℚ :=
  match rows with
  | [] => none
  | e :: es => some ((es.map RefEntry.mz).foldl min e.mz)

/-- One row of the difference table, as built in the main loop of
`analyse_spectrum` for the pair `(a, b)`: `diff = |a - b|`; if `diff` is at
least the reference's minimum mass, the first reference entry whose mass is
strictly within `mass_tol` of `diff` is assigned (`df_mono[...].iloc[0]`);
otherwise the sentinel rows `"No match"` / `"Too small"` with
`Assigned Mass = 0` are produced. -/
def mkDiffRec (rows : List RefEntry) (tol : ℚ) (a b : ℚ) : DiffRec :=
  let d := |a - b|
  let base : DiffRec :=
    { peak1 := a, peak2 := b, peakDifference := d, assignedMass := 0,
      assigned := "", assignedSymbol := "", ionType := "", type := "", length := 1 }
  match minMass rows with
  | none => { base with assigned := "Too small" }
  | some m =>
    if m ≤ d then
      match rows.find? (fun e => decide (|e.mz - d| < tol)) with
      | some e =>
        { base with assigned := e.name, assignedSymbol := e.symbol,
                    assignedMass := e.mz, ionType := e.ionType, type := e.type }
      | none => { base with assigned := "No match" }
    else { base with assigned := "Too small" }

/-! ## Polysaccharide generation and assignment -/

/-- `df_mono.loc[name]` on the `Name`-indexed frame: first row with that
name, `KeyError` if absent. -/
def locByName (rows : List RefEntry) (nm : String) : Except String RefEntry :=
  match rows.find? (fun e => decide (e.name = nm)) with
  | some e => .ok e
  | none => .error ("KeyError: " ++ nm)

/-- Build one polysaccharide row from a tuple of monosaccharide names, as the
inner loop of `generate_polysaccharides` does: concatenate `name + " + "` and
`symbol + " + "` then strip the trailing separator, sum the masses,
concatenate the ion types, record the tuple length. -/
def polyOfTuple (rows : List RefEntry) (tup : List String) : Except String PolyEntry := do
  let entries ← tup.mapM (locByName rows)
  let nameAcc := entries.foldl (fun acc e => acc ++ e.name ++ " + ") ""
  let symAcc := entries.foldl (fun acc e => acc ++ e.symbol ++ " + ") ""
  let mass := entries.foldl (fun acc e => acc + e.mz) 0
  let ion := entries.foldl (fun acc e => acc ++ e.ionType) ""
  pure
    { name := nameAcc.dropRight 3, symbol := symAcc.dropRight 3, mz := mass,
      symbolDescription := "Polysaccharide", ionType := ion, plen := tup.length,
      type := "Polysaccharide" }

/-- The tuple list generated by `generate_polysaccharides`:
`for r in range(2, length + 1): combinations_with_replacement(alphabet, r)`. -/
def polyTuples (alphabet : List String) (len : ℕ) : List (List String) :=
  (List.range' 2 (len - 1)).flatMap (fun r => cwr r alphabet)

/-- `generate_polysaccharides`. Its first statement,
`df_mono.set_index("Name", inplace=True)`, mutates the argument frame (a
`KeyError` if the `Name` column has already been moved into the index); the
mutated table is returned alongside the generated rows so callers can track
the aliasing. -/
def generate_polysaccharides (m : MonoTable) (alphabet : List String) (len : ℕ) :
    Except String (List PolyEntry × MonoTable) :=
  if m.indexIsName then .error "KeyError: Name"
  else
    match (polyTuples alphabet len).mapM (polyOfTuple m.rows) with
    | .error e => .error e
    | .ok entries => .ok (entries, { indexIsName := true, rows := m.rows })

/-- The alphabet collected by `assign_polysaccharides`: the distinct
`Assigned` names of rows already carrying a nonzero `Assigned Mass`, in first
occurrence order (pandas `unique`). -/
def alphabetOf (diffs : List DiffRec) : List String :=
  uniqueFirst ((diffs.filter (fun r => decide (r.assignedMass ≠ 0))).map DiffRec.assigned)

/-- The per-row body of the assignment loop in `assign_polysaccharides`: rows
already assigned are skipped; otherwise, if the difference is at least the
generated table's minimum mass, the first generated row strictly within
`mass_tol` overwrites the assignment columns. -/
def assignRecord (polyT : List PolyEntry) (tol : ℚ) (r : DiffRec) : DiffRec :=
  if r.assignedMass ≠ 0 then r
  else if colMin (polyT.map PolyEntry.mz) ≤ r.peakDifference then
    match polyT.find? (fun e => decide (|e.mz - r.peakDifference| < tol)) with
    | some e =>
      { r with assigned := e.name, assignedSymbol := e.symbol, assignedMass := e.mz,
               ionType := e.ionType, length := e.plen, type := e.type }
    | none => r
  else r

/-- `assign_polysaccharides`. Returns the updated full table (the source
mutates `df_diffs` in place, so the caller observes the updates), the
assigned and unassigned partitions, and the post-call state of `df_mono`.
When the generated table is empty (no length-1 assignments) the first
unassigned row's `df_poly["m/z"]` lookup raises a `KeyError` (an empty
`DataFrame([])` has no columns); that per-row exception is modelled as the
single error check before the map, which changes nothing observable since an
error discards the partial updates. -/
def assign_polysaccharides (diffs : List DiffRec) (m : MonoTable) (len : ℕ) (tol : ℚ) :
    Except String (List DiffRec × List DiffRec × List DiffRec × MonoTable) :=
  if 1 < len then
    match generate_polysaccharides m (alphabetOf diffs) len with
    | .error e => .error e
    | .ok (polyT, m1) =>
      if polyT = [] ∧ diffs.any (fun r => decide (r.assignedMass = 0)) then
        .error "KeyError: m/z"
      else
        let updated := diffs.map (assignRecord polyT tol)
        .ok (updated,
             updated.filter (fun r => decide (r.assignedMass ≠ 0)),
             updated.filter (fun r => decide (r.assignedMass = 0)), m1)
  else
    .ok (diffs,
         diffs.filter (fun r => decide (r.assignedMass ≠ 0)),
         diffs.filter (fun r => decide (r.assignedMass = 0)), m)

/-! ## `analyse_spectrum` -/

/-- The four result tables of a successful `analyse_spectrum` run. -/
structure AnalysisResult where
  diffs : List DiffRec
  assigned : List DiffRec
  unassigned : List UDiffRec
  unmatched : List PPeak
deriving DecidableEq, Repr

/-- The two reference-rebinding lines at the top of `analyse_spectrum`:
`df_mono = df_mono if not use_b_y else make_b_y_df_mono(df_mono)` and
`df_mono = df_mono if not use_mods else pd.concat([df_mono, MODS])`. Either
flag rebinds the local name to a fresh frame. -/
def monoForRun (m : MonoTable) (use_mods use_b_y : Bool) : MonoTable :=
  let m1 := if use_b_y then make_b_y_df_mono m else m
  if use_mods then { indexIsName := m1.indexIsName, rows := m1.rows ++ MODS } else m1

/-- The `data` list built by the main loop of `analyse_spectrum`: one record
per `itertools.combinations(df["m/z"], 2)` pair. -/
def diffData (df : List PPeak) (rows : List RefEntry) (tol : ℚ) : List DiffRec :=
  (combinations2 (df.map PPeak.mz)).map (fun ab => mkDiffRec rows tol ab.1 ab.2)

/-- The four tables returned by `analyse_spectrum` on the non-empty path:
the mutated full table, the assigned partition, the unassigned partition with
its assignment columns dropped, and the input peaks whose `m/z` appears
neither as `Peak 1` nor as `Peak 2` of an assigned record (the `isin`
filter). -/
def buildResult (df : List PPeak) (updated assigned unassigned4 : List DiffRec) :
    AnalysisResult :=
  { diffs := updated, assigned := assigned,
    unassigned := unassigned4.map toUDiffRec,
    unmatched := df.filter (fun p =>
      decide (¬ p.mz ∈ assigned.map DiffRec.peak1 ∧
              ¬ p.mz ∈ assigned.map DiffRec.peak2)) }

/-- The caller's view of the `df_mono` argument after the call: if either
flag rebound the local name, the caller's frame was never touched; otherwise
the local name aliased the caller's frame throughout and the caller sees its
final state. -/
def callerMono (m mAfter : MonoTable) (use_mods use_b_y : Bool) : MonoTable :=
  if use_mods || use_b_y then m else mAfter

/-- `analyse_spectrum`. The result pairs the Python return value (`none`
models the `(None, None, None, None)` early return) with the caller-visible
state of the `df_mono` argument after the call (see `callerMono`): the
in-place `set_index` performed by `generate_polysaccharides` (reached when
`length > 1` and at least one pair exists) hits the caller's frame exactly
when neither flag rebound the local name. -/
def analyse_spectrum (df : List PPeak) (m : MonoTable) (tol : ℚ) (len : ℕ)
    (use_mods use_b_y : Bool) :
    Except String (Option AnalysisResult × MonoTable) :=
  let m2 := monoForRun m use_mods use_b_y
  let data := diffData df m2.rows tol
  if data = [] then .ok (none, m)
  else
    match assign_polysaccharides (sortByKey (fun r => -r.assignedMass) data) m2 len tol with
    | .error e => .error e
    | .ok (updated, assigned, unassigned4, mAfter) =>
      .ok (some (buildResult df updated assigned unassigned4),
        callerMono m mAfter use_mods use_b_y)

/-- Shape of a successful, non-empty `analyse_spectrum` run: the result is
built from the quadruple returned by `assign_polysaccharides` on the sorted
difference table. -/
theorem analyse_ok_some (df : List PPeak) (m : MonoTable) (tol : ℚ) (len : ℕ)
    (um uby : Bool) (res : AnalysisResult) (mono' : MonoTable)
    (hok : analyse_spectrum df m tol len um uby = .ok (some res, mono')) :
    ∃ u a2 un ma,
      assign_polysaccharides
          (sortByKey (fun r => -r.assignedMass) (diffData df (monoForRun m um uby).rows tol))
          (monoForRun m um uby) len tol = .ok (u, a2, un, ma) ∧
        res = buildResult df u a2 un ∧ mono' = callerMono m ma um uby ∧
        diffData df (monoForRun m um uby).rows tol ≠ [] := by
  unfold analyse_spectrum at hok
  dsimp only at hok
  split at hok
  · simp at hok
  · rename_i hne
    split at hok
    · simp at hok
    · rename_i heq
      simp only [Except.ok.injEq, Prod.mk.injEq, Option.some.injEq] at hok
      obtain ⟨h1, h2⟩ := hok
      exact ⟨_, _, _, _, heq, h1.symm, h2.symm, hne⟩

/-- `True` exactly on the "no peaks found" outcome surfaced to the app
(`df_diffs is None`). -/
def noPeaksSignal (x : Except String (Option AnalysisResult × MonoTable)) : Bool :=
  match x with
  | .ok (none, _) => true
  | _ => false

/-- The caller-visible state of the `df_mono` argument after a non-raising
`analyse_spectrum` call. -/
def monoAfterOf (x : Except String (Option AnalysisResult × MonoTable)) :
    Option MonoTable :=
  match x with
  | .ok (_, mo) => some mo
  | .error _ => none

/-! ## Backbone extraction (`plotting.py`, `plot_peak_diff_graph`)

The networkx calls are modelled by their documented behaviour:
`nx.from_pandas_edgelist` builds an undirected graph whose nodes are the
endpoint values in order of appearance, `min`/`max` on an empty node set
raise `ValueError`, and `nx.shortest_path` runs a breadth-first search and
raises `NetworkXNoPath` when source and target are in different connected
components. The spring layout only chooses coordinates and is not modelled.
-/

/-- The edge list `nx.from_pandas_edgelist` is given: one `(Peak 1, Peak 2)`
edge per assigned, non-`"Modification"` record. -/
def edgeListOf (records : List DiffRec) : List (ℚ × ℚ) :=
  (records.filter (fun r => decide (r.type ≠ "Modification"))).map
    (fun r => (r.peak1, r.peak2))

/-- The graph's node set, in order of appearance in the edge list. -/
def nodesOf (records : List DiffRec) : List ℚ :=
  uniqueFirst ((edgeListOf records).flatMap (fun e => [e.1, e.2]))

/-- `min(G.nodes)`. -/
def smallestNode (records : List DiffRec) : ℚ :=
  colMin (nodesOf records)

/-- `max(G.nodes)`. -/
def largestNode (records : List DiffRec) : ℚ :=
  colMax (nodesOf records)

/-- Undirected neighbours of `v` in the edge list. -/
def neighborsOf (es : List (ℚ × ℚ)) (v : ℚ) : List ℚ :=
  es.filterMap (fun e =>
    if e.1 = v then some e.2 else if e.2 = v then some e.1 else none)

/-- Breadth-first search over the edge list. The queue holds reversed paths
(head = frontier node); `fuel` bounds the number of dequeues (any bound at
least `1 + 2 * es.length` covers every insertion, since each inserted node
consumes an edge endpoint). -/
def bfsAux (es : List (ℚ × ℚ)) (target : ℚ) :
    ℕ → List (List ℚ) → List ℚ → Option (List ℚ)
  | 0, _, _ => none
  | _ + 1, [], _ => none
  | fuel + 1, p :: queue, visited =>
    match p with
    | [] => bfsAux es target fuel queue visited
    | v :: _ =>
      if v = target then some p.reverse
      else
        let ns := (neighborsOf es v).filter (fun w => decide (¬ w ∈ visited))
        bfsAux es target fuel (queue ++ ns.map (fun w => w :: p)) (visited ++ ns)

/-- `nx.shortest_path(G, source, target)`: `none` models the raised
`NetworkXNoPath`. -/
def bfsPath (es : List (ℚ × ℚ)) (s t : ℚ) : Option (List ℚ) :=
  bfsAux es t (2 * es.length + 2) [[s]] [s]

/-- The drawable content of the figure produced by `plot_peak_diff_graph`
(coordinates chosen by the spring layout are not modelled): node labels, edge
list, and the backbone path whose edges are highlighted. -/
structure PlotFig where
  nodes : List ℚ
  edges : List (ℚ × ℚ)
  backbone : List ℚ
deriving DecidableEq, Repr

/-- `plot_peak_diff_graph`: empty input returns an empty figure; otherwise
the match graph is built, and `nx.shortest_path` is called between the
largest and smallest peak nodes with no exception handler around it — a
disconnected pair propagates `NetworkXNoPath` out of the function, an empty
node set propagates the `ValueError` from `min(G.nodes)`. -/
def plot_peak_diff_graph (records : List DiffRec) : Except String PlotFig :=
  if records = [] then .ok { nodes := [], edges := [], backbone := [] }
  else if nodesOf records = [] then
    .error "ValueError: min() arg is an empty sequence"
  else
    match bfsPath (edgeListOf records) (largestNode records) (smallestNode records) with
    | none => .error "NetworkXNoPath"
    | some p =>
      .ok { nodes := nodesOf records, edges := edgeListOf records, backbone := p }

/-- Undirected adjacency in an edge list. -/
def Adj (es : List (ℚ × ℚ)) (a b : ℚ) : Prop :=
  (a, b) ∈ es ∨ (b, a) ∈ es

/-- `l` is a walk from `s` to `t` along edges of `es`. -/
def IsGraphPath (es : List (ℚ × ℚ)) (s t : ℚ) (l : List ℚ) : Prop :=
  l.head? = some s ∧ l.getLast? = some t ∧ l.Chain' (Adj es)

/-! ## Helper lemmas: the scan/drop structure of `prune_isotopes` -/

/-- Membership in the take-while segment of an arithmetic range. -/
theorem mem_takeWhile_range' {p : ℕ → Bool} :
    ∀ {n a x : ℕ}, x ∈ (List.range' a n).takeWhile p ↔
      a ≤ x ∧ x < a + n ∧ ∀ k, a ≤ k → k ≤ x → p k = true := by
  intro n
  induction n with
  | zero =>
    intro a x
    constructor
    · intro h
      simp [List.range'] at h
    · rintro ⟨h1, h2, -⟩
      exact absurd h1 (by omega)
  | succ n ih =>
    intro a x
    rw [List.range'_succ, List.takeWhile_cons]
    cases hp : p a with
    | true =>
      simp only [if_true, List.mem_cons, ih]
      constructor
      · rintro (rfl | ⟨h1, h2, h3⟩)
        · refine ⟨le_refl x, by omega, fun k hk1 hk2 => ?_⟩
          have hkx : k = x := by omega
          rw [hkx]
          exact hp
        · refine ⟨by omega, by omega, fun k hk1 hk2 => ?_⟩
          rcases Nat.eq_or_lt_of_le hk1 with rfl | hk
          · exact hp
          · exact h3 k (by omega) hk2
      · rintro ⟨h1, h2, h3⟩
        rcases Nat.eq_or_lt_of_le h1 with rfl | hx
        · exact Or.inl rfl
        · exact Or.inr ⟨by omega, by omega, fun k hk1 hk2 => h3 k (by omega) hk2⟩
    | false =>
      simp only [Bool.false_eq_true, if_false]
      constructor
      · intro h
        simp at h
      · rintro ⟨h1, -, h3⟩
        have := h3 a (le_refl a) h1
        rw [hp] at this
        exact absurd this (by simp)

/-- Membership in one inner-loop scan: the rows `j` scanned from head `i` are
exactly those with every row from `i+1` up to `j` (inclusive) within the
tolerance of the head. -/
theorem mem_scanFrom {s : List ℚ} {tol : ℚ} {i j : ℕ} :
    j ∈ scanFrom s tol i ↔
      i < j ∧ j < s.length ∧ ∀ k, i < k → k ≤ j → |s.getD i 0 - s.getD k 0| < tol := by
  unfold scanFrom
  rw [mem_takeWhile_range']
  constructor
  · rintro ⟨h1, h2, h3⟩
    exact ⟨by omega, by omega, fun k hk1 hk2 => by
      have := h3 k (by omega) hk2
      simpa using this⟩
  · rintro ⟨h1, h2, h3⟩
    exact ⟨by omega, by omega, fun k hk1 hk2 => by
      simpa using h3 k (by omega) hk2⟩

/-- Monotone access into an ascending list. -/
theorem getD_mono {s : List ℚ} (hs : s.Pairwise (· ≤ ·)) {i j : ℕ}
    (hij : i ≤ j) (hj : j < s.length) : s.getD i 0 ≤ s.getD j 0 := by
  rcases Nat.eq_or_lt_of_le hij with rfl | hlt
  · exact le_refl _
  · have hi : i < s.length := lt_trans hlt hj
    rw [List.getD_eq_getElem _ _ hi, List.getD_eq_getElem _ _ hj]
    exact List.pairwise_iff_getElem.mp hs i j hi hj hlt

/-- On an ascending `m/z` column, a row is collected into `to_drop` exactly
when its gap to the immediately preceding row is under the tolerance. -/
theorem mem_toDropList {s : List ℚ} {tol : ℚ} (hs : s.Pairwise (· ≤ ·)) {j : ℕ} :
    j ∈ toDropList s tol ↔
      1 ≤ j ∧ j < s.length ∧ s.getD j 0 - s.getD (j - 1) 0 < tol := by
  unfold toDropList
  rw [List.mem_flatMap]
  constructor
  · rintro ⟨i, hi, hscan⟩
    rw [List.mem_range] at hi
    rw [mem_scanFrom] at hscan
    obtain ⟨hij, hjlen, hall⟩ := hscan
    have habs := hall j hij (le_refl j)
    have hmono : s.getD i 0 ≤ s.getD j 0 := getD_mono hs (le_of_lt hij) hjlen
    rw [abs_sub_comm, abs_of_nonneg (by linarith)] at habs
    have hmono2 : s.getD i 0 ≤ s.getD (j - 1) 0 := getD_mono hs (by omega) (by omega)
    exact ⟨by omega, hjlen, by linarith⟩
  · rintro ⟨h1, h2, h3⟩
    refine ⟨j - 1, List.mem_range.mpr (by omega), mem_scanFrom.mpr ⟨by omega, h2, ?_⟩⟩
    intro k hk1 hk2
    have hkj : k = j := by omega
    rw [hkj]
    have hmono : s.getD (j - 1) 0 ≤ s.getD j 0 := getD_mono hs (by omega) h2
    rw [abs_sub_comm, abs_of_nonneg (by linarith)]
    linarith

/-! ## Helper lemmas: the stable sort -/

theorem perm_insertByKey (key : α → ℚ) (x : α) (l : List α) :
    List.Perm (insertByKey key x l) (x :: l) := by
  induction l with
  | nil => rfl
  | cons y ys ih =>
    unfold insertByKey
    by_cases h : key y < key x
    · rw [if_pos h]
      exact (ih.cons y).trans (List.Perm.swap x y ys)
    · rw [if_neg h]

theorem perm_sortByKey (key : α → ℚ) (l : List α) : List.Perm (sortByKey key l) l := by
  induction l with
  | nil => rfl
  | cons x xs ih =>
    exact (perm_insertByKey key x (sortByKey key xs)).trans (ih.cons x)

theorem sorted_insertByKey (key : α → ℚ) (x : α) {l : List α}
    (hl : l.Pairwise (fun a b => key a ≤ key b)) :
    (insertByKey key x l).Pairwise (fun a b => key a ≤ key b) := by
  induction l with
  | nil => simp [insertByKey]
  | cons y ys ih =>
    rw [List.pairwise_cons] at hl
    obtain ⟨hy, hys⟩ := hl
    unfold insertByKey
    by_cases h : key y < key x
    · rw [if_pos h, List.pairwise_cons]
      refine ⟨fun z hz => ?_, ih hys⟩
      rcases List.mem_cons.mp ((perm_insertByKey key x ys).mem_iff.mp hz) with rfl | hz'
      · exact le_of_lt h
      · exact hy z hz'
    · rw [if_neg h, List.pairwise_cons]
      push_neg at h
      refine ⟨?_, List.pairwise_cons.mpr ⟨hy, hys⟩⟩
      intro z hz
      rcases List.mem_cons.mp hz with rfl | hz'
      · exact h
      · exact le_trans h (hy z hz')

theorem sorted_sortByKey (key : α → ℚ) (l : List α) :
    (sortByKey key l).Pairwise (fun a b => key a ≤ key b) := by
  induction l with
  | nil => simp [sortByKey]
  | cons x xs ih => exact sorted_insertByKey key x ih

/-- The sorted `m/z` column inside `prune_isotopes` is ascending. -/
theorem sorted_mzs (peaks : List Peak) :
    ((sortByKey Peak.mz peaks).map Peak.mz).Pairwise (· ≤ ·) :=
  List.pairwise_map.mpr (sorted_sortByKey Peak.mz peaks)

/-! ## Helper lemmas: enumeration and filterMap glue -/

theorem filterMap_congr_mem {l : List α} {f g : α → Option β}
    (h : ∀ a ∈ l, f a = g a) : l.filterMap f = l.filterMap g := by
  induction l with
  | nil => rfl
  | cons x xs ih =>
    rw [List.filterMap_cons, List.filterMap_cons, h x (List.mem_cons_self x xs),
      ih (fun a ha => h a (List.mem_cons_of_mem x ha))]

theorem enumFrom_map_snd (g : α → β) :
    ∀ (n : ℕ) (l : List α),
      (l.map g).enumFrom n = (l.enumFrom n).map (fun ip => (ip.1, g ip.2)) := by
  intro n l
  induction l generalizing n with
  | nil => rfl
  | cons x xs ih => simp [List.enumFrom, ih]

theorem enum_map_snd (g : α → β) (l : List α) :
    (l.map g).enum = l.enum.map (fun ip => (ip.1, g ip.2)) :=
  enumFrom_map_snd g 0 l

/-- Decoding membership in `l.enum`: the index is in range and reads back the
element. -/
theorem mem_enum_decode {l : List α} {ip : ℕ × α} (h : ip ∈ l.enum) (d : α) :
    ip.1 < l.length ∧ l.getD ip.1 d = ip.2 := by
  have hg : l[ip.1]? = some ip.2 := List.mem_enum_iff_getElem?.mp h
  have hlen : ip.1 < l.length := by
    by_contra hge
    rw [List.getElem?_eq_none (by omega)] at hg
    exact Option.noConfusion hg
  refine ⟨hlen, ?_⟩
  rw [List.getD_eq_getElem?_getD, hg]
  rfl

/-- Reading the mapped column at an index below the length. -/
theorem getD_map_of_decode {l : List α} {g : α → β} {j : ℕ} {x : α} (d : α) (d' : β)
    (h1 : j < l.length) (h2 : l.getD j d = x) :
    (l.map g).getD j d' = g x := by
  rw [List.getD_eq_getElem?_getD, List.getElem?_map]
  rw [List.getD_eq_getElem _ _ h1] at h2
  rw [List.getElem?_eq_getElem h1]
  simp [h2]

theorem headD_filter_eq_find? (p : α → Bool) (d : α) :
    ∀ l : List α, (l.filter p).headD d = (l.find? p).getD d := by
  intro l
  induction l with
  | nil => rfl
  | cons x xs ih =>
    cases hp : p x <;> simp [List.filter_cons, List.find?_cons, hp, ih]

/-- On an ascending column, a row in range survives `to_drop` exactly when it
is the first row or lies at least `tol` above its immediate predecessor. -/
theorem not_drop_iff {s : List ℚ} {tol : ℚ} (hs : s.Pairwise (· ≤ ·)) {j : ℕ}
    (hj : j < s.length) :
    (¬ j ∈ toDropList s tol) ↔ (j = 0 ∨ tol ≤ s.getD j 0 - s.getD (j - 1) 0) := by
  rw [mem_toDropList hs]
  constructor
  · intro h
    by_cases hj0 : j = 0
    · exact Or.inl hj0
    · refine Or.inr ?_
      by_contra hlt
      exact h ⟨by omega, hj, by linarith⟩
  · rintro (rfl | hge) ⟨h1, h2, h3⟩
    · omega
    · linarith

/-! ## Claim C3: which peaks survive isotope collapsing -/

/-- Written from the amended claim's words: on the sorted `m/z` column, the
first peak survives, and each subsequent peak survives exactly when its `m/z`
is at least `isotope_tol` above the **immediately preceding** peak of the
sorted input (clusters chain through dropped peaks, they are not anchored at
the surviving head). -/
def gapSurvivors (s : List ℚ) (tol : ℚ) : List ℚ :=
  s.enum.filterMap fun ix =>
    if ix.1 = 0 ∨ tol ≤ ix.2 - s.getD (ix.1 - 1) 0 then some ix.2 else none

/-- Claim C3 (counterexample): with peaks `0, 0.9, 1.8` and
`isotope_tol = 1`, the code keeps only `0`. The claim's rule would keep `1.8`
as well — its distance to the nearest preceding surviving peak (`0`) is
`1.8 ≥ 1` — and its final clause fails outright: the dropped peak `1.8` lies
at distance `≥ 1` from every surviving peak, hence also from its cluster's
surviving head. -/
theorem c3_counterexample :
    ((prune_isotopes [⟨0, 1⟩, ⟨9/10, 1⟩, ⟨9/5, 1⟩] 1).map PPeak.mz = [0]) ∧
      (∀ q ∈ prune_isotopes [⟨0, 1⟩, ⟨9/10, 1⟩, ⟨9/5, 1⟩] 1,
        1 ≤ |(9/5 : ℚ) - q.mz|) := by
  constructor
  · decide
  · decide

/-- Claim C3 (amended): isotope collapsing keeps exactly the chain-cluster
survivors: the first sorted peak survives, and each subsequent peak survives
iff its `m/z` is at least `isotope_tol` above the immediately preceding peak
of the sorted input; consequently every dropped peak lies within
`isotope_tol` of its immediate predecessor (not necessarily of its cluster's
surviving head). -/
theorem c3_amended (peaks : List Peak) (tol : ℚ) :
    (prune_isotopes peaks tol).map PPeak.mz =
      gapSurvivors ((sortByKey Peak.mz peaks).map Peak.mz) tol := by
  unfold prune_isotopes gapSurvivors
  rw [List.map_filterMap, enum_map_snd, List.filterMap_map]
  apply filterMap_congr_mem
  intro ip hip
  obtain ⟨hlen, hget⟩ := mem_enum_decode hip ⟨0, 0⟩
  have hmz : ((sortByKey Peak.mz peaks).map Peak.mz).getD ip.1 0 = ip.2.mz :=
    getD_map_of_decode ⟨0, 0⟩ 0 hlen hget
  have hlen' : ip.1 < ((sortByKey Peak.mz peaks).map Peak.mz).length := by
    rwa [List.length_map]
  by_cases hd : ip.1 ∈ toDropList ((sortByKey Peak.mz peaks).map Peak.mz) tol
  · have hcond : ¬ (ip.1 = 0 ∨
        tol ≤ ((sortByKey Peak.mz peaks).map Peak.mz).getD ip.1 0 -
          ((sortByKey Peak.mz peaks).map Peak.mz).getD (ip.1 - 1) 0) :=
      fun hc => (not_drop_iff (sorted_mzs peaks) hlen').mpr hc hd
    rw [hmz] at hcond
    simp only [Function.comp_apply, if_pos hd, if_neg hcond, Option.map_none']
  · have hcond := (not_drop_iff (sorted_mzs peaks) hlen').mp hd
    rw [hmz] at hcond
    simp only [Function.comp_apply, if_neg hd, if_pos hcond, Option.map_some']

/-! ## Claim C6: charge-state inference -/

/-- Written from the amended claim's words: the smallest charge `z ∈ {1..5}`
such that every recorded cluster distance is within `1e-3` of `1/z`,
defaulting to `1` when none qualifies (`find?` on the ascending range
`[1, 2, 3, 4, 5]` returns the smallest accepted candidate). -/
def smallestAcceptedCharge (ds : List ℚ) : ℕ :=
  match (List.range' 1 5).find?
      (fun (z : ℕ) => ds.all (fun d => decide (|1 / (z : ℚ) - d| ≤ 1 / 1000))) with
  | some z => z
  | none => 1

theorem smallestAcceptedCharge_eq_getD (ds : List ℚ) :
    smallestAcceptedCharge ds =
      ((List.range' 1 5).find?
        (fun (z : ℕ) => ds.all (fun d => decide (|1 / (z : ℚ) - d| ≤ 1 / 1000)))).getD 1 := by
  unfold smallestAcceptedCharge
  rcases hf : (List.range' 1 5).find?
      (fun (z : ℕ) => ds.all (fun d => decide (|1 / (z : ℚ) - d| ≤ 1 / 1000))) with _ | z <;>
    simp [hf]

/-- Written from the amended claim's words: survivors are the chain-cluster
heads (first sorted peak, and peaks at least `isotope_tol` above their
immediate predecessor); every survivor carries the smallest accepted charge
state for its recorded cluster distances — distances measured from the
cluster head to each scanned member, not successive gaps — **except** the
peak at the last sorted position, whose charge state the writing loop
(`for i in range(len - 1))`) never sets. -/
def pruneChargeSpec (peaks : List Peak) (tol : ℚ) : List PPeak :=
  let s := sortByKey Peak.mz peaks
  let mzs := s.map Peak.mz
  s.enum.filterMap fun ip =>
    if ip.1 ≠ 0 ∧ ip.2.mz - mzs.getD (ip.1 - 1) 0 < tol then none
    else some
      { mz := ip.2.mz, intensity := ip.2.intensity,
        chargeState :=
          if ip.1 + 1 < s.length then
            some (smallestAcceptedCharge (clusterDiffs mzs tol ip.1))
          else none }

/-- Claim C6 (counterexample): peaks `100, 100.5, 101, 200` with
`isotope_tol = 1.2`. The cluster at `100` has recorded distances
`[0.5, 1.0]` (measured from the head), so no `z` is accepted and the charge
defaults to `1` — the claim's successive-gap reading (`[0.5, 0.5]`) would
infer `z = 2`. The surviving peak `200` sits at the last sorted position and
carries **no** charge state at all, refuting "no surviving peak is left
without a charge state". -/
theorem c6_counterexample :
    (prune_isotopes [⟨100, 1⟩, ⟨201/2, 1⟩, ⟨101, 1⟩, ⟨200, 1⟩] (6/5)).map
        PPeak.chargeState = [some 1, none] := by
  decide

/-- Claim C6 (amended): every surviving peak except the one at the last
sorted position carries a charge state, namely the smallest `z ∈ {1..5}`
such that every recorded distance from the cluster head to a scanned member
is within `1e-3` of `1/z` (default `1`, also for singleton clusters); the
peak at the last sorted position, when it survives, carries no charge
state. -/
theorem c6_amended (peaks : List Peak) (tol : ℚ) :
    prune_isotopes peaks tol = pruneChargeSpec peaks tol := by
  unfold prune_isotopes pruneChargeSpec
  apply filterMap_congr_mem
  intro ip hip
  obtain ⟨hlen, hget⟩ := mem_enum_decode hip ⟨0, 0⟩
  have hmz : ((sortByKey Peak.mz peaks).map Peak.mz).getD ip.1 0 = ip.2.mz :=
    getD_map_of_decode ⟨0, 0⟩ 0 hlen hget
  have hlen' : ip.1 < ((sortByKey Peak.mz peaks).map Peak.mz).length := by
    rwa [List.length_map]
  have hcharge : chargeOf ((sortByKey Peak.mz peaks).map Peak.mz) tol ip.1 =
      smallestAcceptedCharge (clusterDiffs ((sortByKey Peak.mz peaks).map Peak.mz) tol ip.1) := by
    unfold chargeOf chargeCandidates
    rw [headD_filter_eq_find?, smallestAcceptedCharge_eq_getD]
  by_cases hd : ip.1 ∈ toDropList ((sortByKey Peak.mz peaks).map Peak.mz) tol
  · have hcond : ip.1 ≠ 0 ∧
        ip.2.mz - ((sortByKey Peak.mz peaks).map Peak.mz).getD (ip.1 - 1) 0 < tol := by
      have hmem := (mem_toDropList (sorted_mzs peaks)).mp hd
      rw [hmz] at hmem
      exact ⟨by omega, hmem.2.2⟩
    rw [if_pos hd, if_pos hcond]
  · have hcond : ¬ (ip.1 ≠ 0 ∧
        ip.2.mz - ((sortByKey Peak.mz peaks).map Peak.mz).getD (ip.1 - 1) 0 < tol) := by
      rintro ⟨h0, hlt⟩
      rcases (not_drop_iff (sorted_mzs peaks) hlen').mp hd with h | h
      · exact h0 h
      · rw [hmz] at h
        linarith
    rw [if_neg hd, if_neg hcond, hcharge]

/-! ## Claim C7: surviving peaks are pairwise at least `isotope_tol` apart -/

/-- Core invariant: the output of `prune_isotopes` is ascending with every
pair of rows at least `tol` apart. A later survivor `q` at sorted index `j`
is not in `to_drop`, so `q.mz` exceeds the row at `j - 1` by at least `tol`,
and any earlier survivor sits at or below that row. -/
theorem prune_pairwise (peaks : List Peak) (tol : ℚ) :
    (prune_isotopes peaks tol).Pairwise (fun p q => tol ≤ q.mz - p.mz) := by
  unfold prune_isotopes
  rw [List.pairwise_filterMap]
  have hrich : (sortByKey Peak.mz peaks).enum.Pairwise (fun a b =>
      a.1 < b.1 ∧ b.1 < (sortByKey Peak.mz peaks).length ∧
      a.2.mz ≤ ((sortByKey Peak.mz peaks).map Peak.mz).getD (b.1 - 1) 0 ∧
      b.2.mz = ((sortByKey Peak.mz peaks).map Peak.mz).getD b.1 0) := by
    rw [List.pairwise_iff_getElem]
    intro i j hi hj hij
    simp only [List.enum] at hi hj ⊢
    rw [List.enumFrom_length] at hi hj
    have hgi := List.getElem_enumFrom (sortByKey Peak.mz peaks) 0 i
      (by rwa [List.enumFrom_length])
    have hgj := List.getElem_enumFrom (sortByKey Peak.mz peaks) 0 j
      (by rwa [List.enumFrom_length])
    rw [hgi, hgj]
    dsimp only
    simp only [Nat.zero_add]
    have hmzs := sorted_mzs peaks
    have hmzs_len : ((sortByKey Peak.mz peaks).map Peak.mz).length =
        (sortByKey Peak.mz peaks).length := List.length_map _ _
    refine ⟨by omega, by omega, ?_, ?_⟩
    · have h1 : ((sortByKey Peak.mz peaks).map Peak.mz).getD i 0 =
          (sortByKey Peak.mz peaks)[i].mz := by
        rw [List.getD_eq_getElem _ _ (by omega), List.getElem_map]
      have h2 : ((sortByKey Peak.mz peaks).map Peak.mz).getD i 0 ≤
          ((sortByKey Peak.mz peaks).map Peak.mz).getD (j - 1) 0 :=
        getD_mono hmzs (by omega) (by omega)
      rw [h1] at h2
      simpa using h2
    · rw [List.getD_eq_getElem _ _ (by omega), List.getElem_map]
  refine hrich.imp ?_
  rintro a b ⟨hab, hblen, hle, heq⟩ x hx y hy
  have hblen' : b.1 < ((sortByKey Peak.mz peaks).map Peak.mz).length := by
    rw [List.length_map]; exact hblen
  by_cases hda : a.1 ∈ toDropList ((sortByKey Peak.mz peaks).map Peak.mz) tol
  · rw [if_pos hda] at hx
    exact absurd hx (by simp)
  · rw [if_neg hda] at hx
    by_cases hdb : b.1 ∈ toDropList ((sortByKey Peak.mz peaks).map Peak.mz) tol
    · rw [if_pos hdb] at hy
      exact absurd hy (by simp)
    · rw [if_neg hdb] at hy
      have hxmz : x.mz = a.2.mz := by
        have := Option.some_inj.mp hy
        have hx' := Option.some_inj.mp hx
        rw [← hx']
      have hymz : y.mz = b.2.mz := by
        have hy' := Option.some_inj.mp hy
        rw [← hy']
      rcases (not_drop_iff (sorted_mzs peaks) hblen').mp hdb with h0 | hgap
      · omega
      · rw [hxmz, hymz, heq]
        have : ((sortByKey Peak.mz peaks).map Peak.mz).getD (b.1 - 1) 0 ≥ a.2.mz := hle
        linarith

/-- Claim C7: any two distinct peaks surviving preprocessing differ in `m/z`
by at least `isotope_tol`; with a positive tolerance all surviving `m/z`
values are distinct. -/
theorem c7_pairwise_separation (peaks : List Peak) (threshold lo hi tol : ℚ) :
    ((preprocess_data peaks threshold lo hi tol).Pairwise
        fun p q => tol ≤ |p.mz - q.mz|) ∧
      (0 < tol →
        (preprocess_data peaks threshold lo hi tol).Pairwise
          fun p q => p.mz ≠ q.mz) := by
  have hbase := prune_pairwise (threshold_peaks peaks threshold lo hi) tol
  constructor
  · refine hbase.imp ?_
    intro p q h
    calc tol ≤ q.mz - p.mz := h
    _ ≤ |q.mz - p.mz| := le_abs_self _
    _ = |p.mz - q.mz| := abs_sub_comm _ _
  · intro htol
    refine hbase.imp ?_
    intro p q h heq
    rw [heq] at h
    linarith

/-- Concrete instantiation of `c7_pairwise_separation` discharging its
positivity hypothesis. -/
theorem c7_witness :
    ((preprocess_data [⟨100, 10⟩, ⟨1003/10, 9⟩, ⟨105, 8⟩] 15 0 5000 1).Pairwise
        fun p q => (1 : ℚ) ≤ |p.mz - q.mz|) ∧
      ((preprocess_data [⟨100, 10⟩, ⟨1003/10, 9⟩, ⟨105, 8⟩] 15 0 5000 1).Pairwise
        fun p q => p.mz ≠ q.mz) :=
  ⟨(c7_pairwise_separation [⟨100, 10⟩, ⟨1003/10, 9⟩, ⟨105, 8⟩] 15 0 5000 1).1,
   (c7_pairwise_separation [⟨100, 10⟩, ⟨1003/10, 9⟩, ⟨105, 8⟩] 15 0 5000 1).2
     (by norm_num)⟩

/-! ## Claim C2: tolerance matching of a peak difference -/

/-- Claim C2 (counterexample): reference `{Hex, mass = 100}`, `mass_tol = 1`,
peaks `0` and `99.5`. The entry's mass differs from the delta by `0.5 < 1`,
yet the pair is **not** assigned: the guard `diff >= df_mono["m/z"].min()`
fires first and marks the pair `"Too small"`. -/
theorem c2_counterexample :
    ((⟨"Hex", "H", 100, "Hexose", "", "Monosaccharide"⟩ : RefEntry) ∈
        ([⟨"Hex", "H", 100, "Hexose", "", "Monosaccharide"⟩] : List RefEntry) ∧
      |(100 : ℚ) - (|(0 : ℚ) - 199/2|)| < 1) ∧
    (mkDiffRec [⟨"Hex", "H", 100, "Hexose", "", "Monosaccharide"⟩] 1 0 (199/2)).assignedMass
        = 0 ∧
    (mkDiffRec [⟨"Hex", "H", 100, "Hexose", "", "Monosaccharide"⟩] 1 0 (199/2)).assigned
        = "Too small" := by
  refine ⟨⟨by decide, by decide⟩, by decide, by decide⟩

/-- Claim C2 (amended): an entry at exactly `mass_tol` from the delta is
never assigned — any assigned mass lies strictly within `mass_tol` of the
delta; and **provided the delta is at least the reference's minimum mass**,
whenever some entry lies strictly within `mass_tol` of the delta the pair is
assigned to the first such entry in iteration order (`find?` selects the
first match). Pairs below the minimum mass are marked `"Too small"` without
any match being attempted. -/
theorem c2_amended (rows : List RefEntry) (tol a b : ℚ) :
    ((mkDiffRec rows tol a b).assignedMass ≠ 0 →
      |(mkDiffRec rows tol a b).assignedMass - (|a - b|)| < tol) ∧
    (∀ m, minMass rows = some m → m ≤ |a - b| →
      ∀ e₀ ∈ rows, |e₀.mz - (|a - b|)| < tol →
        ∃ e, rows.find? (fun e => decide (|e.mz - (|a - b|)| < tol)) = some e ∧
          mkDiffRec rows tol a b =
            { peak1 := a, peak2 := b, peakDifference := |a - b|,
              assignedMass := e.mz, assigned := e.name,
              assignedSymbol := e.symbol, ionType := e.ionType,
              type := e.type, length := 1 }) := by
  constructor
  · intro hne
    unfold mkDiffRec at hne ⊢
    revert hne
    rcases minMass rows with _ | m
    · intro hne
      simp at hne
    · dsimp only
      by_cases hle : m ≤ |a - b|
      · rw [if_pos hle]
        rcases hf : rows.find? (fun e => decide (|e.mz - (|a - b|)| < tol)) with _ | e
        · rw [hf]
          intro hne
          simp at hne
        · rw [hf]
          intro hne
          have := List.find?_some hf
          simpa using this
      · rw [if_neg hle]
        intro hne
        simp at hne
  · intro m hmin hle e₀ he₀ hpred
    have hsome : (rows.find? (fun e => decide (|e.mz - (|a - b|)| < tol))).isSome := by
      rw [List.find?_isSome]
      exact ⟨e₀, he₀, by simpa using hpred⟩
    rcases hf : rows.find? (fun e => decide (|e.mz - (|a - b|)| < tol)) with _ | e
    · rw [hf] at hsome
      simp at hsome
    · refine ⟨e, hf, ?_⟩
      unfold mkDiffRec
      rw [hmin]
      dsimp only
      rw [if_pos hle, hf]

/-- Concrete instantiation of `c2_amended`: reference `{Hex, mass = 42}`,
`mass_tol = 1`, peaks `100` and `142` — the pair is assigned to the first
(only) entry, and the assigned mass is strictly within tolerance. -/
theorem c2_witness :
    (∃ e, ([⟨"Hex", "H", 42, "Hexose", "", "Monosaccharide"⟩] : List RefEntry).find?
        (fun e => decide (|e.mz - (|(100 : ℚ) - 142|)| < 1)) = some e ∧
      mkDiffRec [⟨"Hex", "H", 42, "Hexose", "", "Monosaccharide"⟩] 1 100 142 =
        { peak1 := 100, peak2 := 142, peakDifference := |(100 : ℚ) - 142|,
          assignedMass := e.mz, assigned := e.name, assignedSymbol := e.symbol,
          ionType := e.ionType, type := e.type, length := 1 }) ∧
    |(mkDiffRec [⟨"Hex", "H", 42, "Hexose", "", "Monosaccharide"⟩] 1 100 142).assignedMass
        - (|(100 : ℚ) - 142|)| < 1 :=
  ⟨(c2_amended [⟨"Hex", "H", 42, "Hexose", "", "Monosaccharide"⟩] 1 100 142).2
      42 (by decide) (by decide)
      ⟨"Hex", "H", 42, "Hexose", "", "Monosaccharide"⟩ (by decide) (by decide),
   (c2_amended [⟨"Hex", "H", 42, "Hexose", "", "Monosaccharide"⟩] 1 100 142).1
      (by decide)⟩

/-! ## Claim C4: when the analysis signals "no peaks found" -/

theorem combinations2_eq_nil {l : List ℚ} : combinations2 l = [] ↔ l.length < 2 := by
  match l with
  | [] => simp [combinations2]
  | [x] => simp [combinations2]
  | x :: y :: tl =>
    simp [combinations2]

theorem diffData_eq_nil_iff (df : List PPeak) (rows : List RefEntry) (tol : ℚ) :
    diffData df rows tol = [] ↔ df.length < 2 := by
  unfold diffData
  rw [List.map_eq_nil_iff, combinations2_eq_nil, List.length_map]

/-- Claim C4 (counterexample): with a single surviving peak and a nonempty
reference, the analysis signals "no peaks found" even though peaks survived
the filter and the reference is nonempty; and with an empty reference but two
peaks, the analysis does **not** signal — it returns ordinary tables with
every pair marked `"Too small"`. Both directions of the claimed equivalence
fail. -/
theorem c4_counterexample :
    (noPeaksSignal (analyse_spectrum (preprocess_data [⟨100, 10⟩] 15 0 5000 1)
          ⟨false, [⟨"Hex", "H", 42, "Hexose", "", "Monosaccharide"⟩]⟩ 1 1 false false) = true ∧
      preprocess_data [⟨100, 10⟩] 15 0 5000 1 ≠ [] ∧
      (⟨false, [⟨"Hex", "H", 42, "Hexose", "", "Monosaccharide"⟩]⟩ : MonoTable).rows ≠ []) ∧
    noPeaksSignal (analyse_spectrum [⟨100, 10, none⟩, ⟨142, 9, none⟩]
        ⟨false, []⟩ 1 1 false false) = false := by
  refine ⟨⟨by decide, by decide, by decide⟩, by decide⟩

/-- Claim C4 (amended): the analysis signals "no peaks found" iff fewer than
two peaks reach `analyse_spectrum` (zero pairs), regardless of the reference:
one surviving peak also triggers the signal, and an empty reference does not
— with at least two peaks it yields ordinary tables (or, for `length > 1`, a
`KeyError`), never the signal. -/
theorem c4_amended (df : List PPeak) (m : MonoTable) (tol : ℚ) (len : ℕ)
    (um uby : Bool) :
    noPeaksSignal (analyse_spectrum df m tol len um uby) = true ↔ df.length < 2 := by
  constructor
  · intro h
    by_contra hlen
    push_neg at hlen
    have hdata : diffData df (monoForRun m um uby).rows tol ≠ [] := by
      unfold diffData
      rw [Ne, List.map_eq_nil_iff, combinations2_eq_nil, List.length_map]
      omega
    unfold analyse_spectrum at h
    dsimp only at h
    rw [if_neg hdata] at h
    split at h
    · simp [noPeaksSignal] at h
    · simp [noPeaksSignal] at h
  · intro hlen
    have hdata : diffData df (monoForRun m um uby).rows tol = [] := by
      unfold diffData
      rw [List.map_eq_nil_iff, combinations2_eq_nil, List.length_map]
      omega
    unfold analyse_spectrum
    dsimp only
    rw [if_pos hdata]
    rfl

/-! ## Claim C10: the unmatched-peak table -/

/-- Claim C10: a peak appears in the unmatched table iff it is an input peak
whose `m/z` occurs neither as `Peak 1` nor as `Peak 2` of any assigned
record. -/
theorem c10_unmatched_iff (df : List PPeak) (m : MonoTable) (tol : ℚ) (len : ℕ)
    (um uby : Bool) (res : AnalysisResult) (mono' : MonoTable)
    (hok : analyse_spectrum df m tol len um uby = .ok (some res, mono')) :
    ∀ p : PPeak, p ∈ res.unmatched ↔
      (p ∈ df ∧ ¬ p.mz ∈ res.assigned.map DiffRec.peak1 ∧
        ¬ p.mz ∈ res.assigned.map DiffRec.peak2) := by
  obtain ⟨u, a2, un, ma, -, hres, -, -⟩ :=
    analyse_ok_some df m tol len um uby res mono' hok
  subst hres
  intro p
  unfold buildResult
  simp only [List.mem_filter, decide_eq_true_eq]

/-- Concrete instantiation of `c10_unmatched_iff`: with peaks
`100, 142, 500`, reference `{Hex, 42}` and `mass_tol = 1`, only the pair
`(100, 142)` is assigned, so peak `500` is in the unmatched table. -/
theorem c10_witness :
    (⟨500, 5, some 1⟩ : PPeak) ∈
      (AnalysisResult.mk
        [⟨100, 142, 42, 42, "Hex", "H", "", "Monosaccharide", 1⟩,
         ⟨100, 500, 400, 0, "No match", "", "", "", 1⟩,
         ⟨142, 500, 358, 0, "No match", "", "", "", 1⟩]
        [⟨100, 142, 42, 42, "Hex", "H", "", "Monosaccharide", 1⟩]
        [⟨100, 500, 400⟩, ⟨142, 500, 358⟩]
        [⟨500, 5, some 1⟩]).unmatched :=
  (c10_unmatched_iff [⟨100, 10, some 1⟩, ⟨142, 9, none⟩, ⟨500, 5, some 1⟩]
      ⟨false, [⟨"Hex", "H", 42, "Hexose", "", "Monosaccharide"⟩]⟩ 1 1 false false
      (AnalysisResult.mk
        [⟨100, 142, 42, 42, "Hex", "H", "", "Monosaccharide", 1⟩,
         ⟨100, 500, 400, 0, "No match", "", "", "", 1⟩,
         ⟨142, 500, 358, 0, "No match", "", "", "", 1⟩]
        [⟨100, 142, 42, 42, "Hex", "H", "", "Monosaccharide", 1⟩]
        [⟨100, 500, 400⟩, ⟨142, 500, 358⟩]
        [⟨500, 5, some 1⟩])
      ⟨false, [⟨"Hex", "H", 42, "Hexose", "", "Monosaccharide"⟩]⟩
      rfl ⟨500, 5, some 1⟩).mpr ⟨by decide, by decide, by decide⟩

/-! ## Claim C8: the difference-record invariant -/

/-- The record invariant of the data model: the stored difference is exactly
`|Peak 1 - Peak 2|`, and a nonzero assigned mass lies strictly within the
mass tolerance of the difference. -/
def RecInv (tol : ℚ) (r : DiffRec) : Prop :=
  r.peakDifference = |r.peak1 - r.peak2| ∧
    (r.assignedMass ≠ 0 → |r.assignedMass - r.peakDifference| < tol)

theorem mkDiffRec_inv (rows : List RefEntry) (tol a b : ℚ) :
    RecInv tol (mkDiffRec rows tol a b) := by
  unfold RecInv mkDiffRec
  rcases minMass rows with _ | mn
  · exact ⟨rfl, fun h => absurd rfl h⟩
  · dsimp only
    by_cases hle : mn ≤ |a - b|
    · rw [if_pos hle]
      rcases hf : rows.find? (fun e => decide (|e.mz - (|a - b|)| < tol)) with _ | e
      · rw [hf]
        exact ⟨rfl, fun h => absurd rfl h⟩
      · rw [hf]
        refine ⟨rfl, fun _ => ?_⟩
        have := List.find?_some hf
        simpa using this
    · rw [if_neg hle]
      exact ⟨rfl, fun h => absurd rfl h⟩

theorem assignRecord_inv (polyT : List PolyEntry) (tol : ℚ) (r : DiffRec)
    (h : RecInv tol r) : RecInv tol (assignRecord polyT tol r) := by
  unfold RecInv assignRecord
  by_cases h0 : r.assignedMass ≠ 0
  · rw [if_pos h0]
    exact h
  · rw [if_neg h0]
    by_cases hmin : colMin (polyT.map PolyEntry.mz) ≤ r.peakDifference
    · rw [if_pos hmin]
      rcases hf : polyT.find? (fun e => decide (|e.mz - r.peakDifference| < tol)) with _ | e
      · rw [hf]
        exact h
      · rw [hf]
        refine ⟨h.1, fun _ => ?_⟩
        have := List.find?_some hf
        simpa using this
    · rw [if_neg hmin]
      exact h

theorem assignRecord_nil (tol : ℚ) (r : DiffRec) : assignRecord [] tol r = r := by
  unfold assignRecord
  by_cases h0 : r.assignedMass ≠ 0
  · rw [if_pos h0]
  · rw [if_neg h0]
    by_cases hmin : colMin (([] : List PolyEntry).map PolyEntry.mz) ≤ r.peakDifference
    · rw [if_pos hmin]
      rfl
    · rw [if_neg hmin]

/-- Shape of a successful `assign_polysaccharides` run: for some generated
table (empty at `length ≤ 1`, where the loop body never executes), the full
table is the per-record map and the partitions are its filters. -/
theorem assign_ok_shape (diffs : List DiffRec) (m : MonoTable) (len : ℕ) (tol : ℚ)
    (u a2 un : List DiffRec) (ma : MonoTable)
    (hok : assign_polysaccharides diffs m len tol = .ok (u, a2, un, ma)) :
    ∃ polyT : List PolyEntry,
      u = diffs.map (assignRecord polyT tol) ∧
      a2 = u.filter (fun r => decide (r.assignedMass ≠ 0)) ∧
      un = u.filter (fun r => decide (r.assignedMass = 0)) := by
  unfold assign_polysaccharides at hok
  split at hok
  · split at hok
    · simp at hok
    · split at hok
      · simp at hok
      · simp only [Except.ok.injEq, Prod.mk.injEq] at hok
        obtain ⟨h1, h2, h3, -⟩ := hok
        exact ⟨_, h1.symm, by rw [← h1, ← h2], by rw [← h1, ← h3]⟩
  · simp only [Except.ok.injEq, Prod.mk.injEq] at hok
    obtain ⟨h1, h2, h3, -⟩ := hok
    refine ⟨[], ?_, by rw [← h1, ← h2], by rw [← h1, ← h3]⟩
    rw [← h1]
    rw [List.map_congr_left (fun x _ => assignRecord_nil tol x)]
    exact (List.map_id diffs).symm

/-- Claim C8: every record in the full difference table and in the assigned
partition of a successful `analyse_spectrum` run satisfies
`Peak Difference = |Peak 1 - Peak 2|` exactly, and its `Assigned Mass`, when
nonzero, lies strictly within `mass_tol` of the difference — after both the
difference engine and polysaccharide assignment. -/
theorem c8_invariant (df : List PPeak) (m : MonoTable) (tol : ℚ) (len : ℕ)
    (um uby : Bool) (res : AnalysisResult) (mono' : MonoTable)
    (hok : analyse_spectrum df m tol len um uby = .ok (some res, mono')) :
    ∀ r : DiffRec, r ∈ res.diffs ∨ r ∈ res.assigned →
      r.peakDifference = |r.peak1 - r.peak2| ∧
      (r.assignedMass ≠ 0 → |r.assignedMass - r.peakDifference| < tol) := by
  obtain ⟨u, a2, un, ma, hass, hres, -, -⟩ :=
    analyse_ok_some df m tol len um uby res mono' hok
  obtain ⟨polyT, hu, ha2, -⟩ := assign_ok_shape _ _ _ _ _ _ _ _ hass
  subst hres
  intro r hr
  have hru : r ∈ u := by
    rcases hr with h | h
    · exact h
    · rw [ha2] at h
      exact (List.mem_filter.mp h).1
  rw [hu] at hru
  obtain ⟨x, hx, hfx⟩ := List.mem_map.mp hru
  have hxdata : x ∈ diffData df (monoForRun m um uby).rows tol :=
    (perm_sortByKey (fun r => -r.assignedMass) _).mem_iff.mp hx
  obtain ⟨ab, -, hmk⟩ := List.mem_map.mp hxdata
  have hinvx : RecInv tol x := hmk ▸ mkDiffRec_inv (monoForRun m um uby).rows tol ab.1 ab.2
  have hinv : RecInv tol r := hfx ▸ assignRecord_inv polyT tol x hinvx
  exact ⟨hinv.1, hinv.2⟩

/-- Concrete instantiation of `c8_invariant`: peaks `100, 142`, reference
`{Hex, 42}`, `mass_tol = 1` — the single (assigned) record satisfies the
invariant. -/
theorem c8_witness :
    (⟨100, 142, 42, 42, "Hex", "H", "", "Monosaccharide", 1⟩ : DiffRec).peakDifference =
        |(⟨100, 142, 42, 42, "Hex", "H", "", "Monosaccharide", 1⟩ : DiffRec).peak1 -
          (⟨100, 142, 42, 42, "Hex", "H", "", "Monosaccharide", 1⟩ : DiffRec).peak2| ∧
      ((⟨100, 142, 42, 42, "Hex", "H", "", "Monosaccharide", 1⟩ : DiffRec).assignedMass ≠ 0 →
        |(⟨100, 142, 42, 42, "Hex", "H", "", "Monosaccharide", 1⟩ : DiffRec).assignedMass -
          (⟨100, 142, 42, 42, "Hex", "H", "", "Monosaccharide", 1⟩ : DiffRec).peakDifference| < 1) :=
  c8_invariant [⟨100, 10, some 1⟩, ⟨142, 9, none⟩]
    ⟨false, [⟨"Hex", "H", 42, "Hexose", "", "Monosaccharide"⟩]⟩ 1 1 false false
    (AnalysisResult.mk
      [⟨100, 142, 42, 42, "Hex", "H", "", "Monosaccharide", 1⟩]
      [⟨100, 142, 42, 42, "Hex", "H", "", "Monosaccharide", 1⟩]
      [] [])
    ⟨false, [⟨"Hex", "H", 42, "Hexose", "", "Monosaccharide"⟩]⟩
    rfl
    ⟨100, 142, 42, 42, "Hex", "H", "", "Monosaccharide", 1⟩
    (Or.inl (by decide))

/-! ## Claim C1: is the analysis free of observable effects on its inputs? -/

theorem generate_ok_mono (m : MonoTable) (alph : List String) (len : ℕ)
    (pT : List PolyEntry) (mg : MonoTable)
    (hok : generate_polysaccharides m alph len = .ok (pT, mg)) :
    m.indexIsName = false ∧ mg = ⟨true, m.rows⟩ := by
  unfold generate_polysaccharides at hok
  split at hok
  · simp at hok
  · rename_i hidx
    split at hok
    · simp at hok
    · simp only [Except.ok.injEq, Prod.mk.injEq] at hok
      exact ⟨by simpa using hidx, hok.2.symm⟩

/-- The post-call state of the table passed to `assign_polysaccharides`: for
`length > 1` the `set_index` inside `generate_polysaccharides` has moved the
`Name` column into the index; for `length ≤ 1` the table is untouched. -/
theorem assign_ok_mono (diffs : List DiffRec) (m : MonoTable) (len : ℕ) (tol : ℚ)
    (u a2 un : List DiffRec) (ma : MonoTable)
    (hok : assign_polysaccharides diffs m len tol = .ok (u, a2, un, ma)) :
    (1 < len → ma = ⟨true, m.rows⟩ ∧ m.indexIsName = false) ∧
      (¬ 1 < len → ma = m) := by
  unfold assign_polysaccharides at hok
  split at hok
  · rename_i hlen
    split at hok
    · simp at hok
    · rename_i polyT m1 hgen
      split at hok
      · simp at hok
      · simp only [Except.ok.injEq, Prod.mk.injEq] at hok
        obtain ⟨-, -, -, h4⟩ := hok
        have hg := generate_ok_mono _ _ _ _ _ hgen
        refine ⟨fun _ => ⟨?_, hg.1⟩, fun hn => absurd hlen hn⟩
        rw [← h4]
        exact hg.2
  · rename_i hlen
    simp only [Except.ok.injEq, Prod.mk.injEq] at hok
    obtain ⟨-, -, -, h4⟩ := hok
    exact ⟨fun hl => absurd hl hlen, fun _ => h4.symm⟩

/-- Claim C1 (counterexample): `analyse_spectrum` with `length = 2` and both
flags off mutates the caller's reference table — the call succeeds, yet the
caller-visible `df_mono` afterwards differs from the table passed in (its
`Name` column has been moved into the index by the in-place `set_index`
inside `generate_polysaccharides`); a second call on the same table would
raise `KeyError: Name`. -/
theorem c1_counterexample :
    monoAfterOf (analyse_spectrum [⟨100, 10, some 1⟩, ⟨142, 9, none⟩]
        ⟨false, [⟨"Hex", "H", 42, "Hexose", "", "Monosaccharide"⟩]⟩ 1 2 false false) ≠
      some ⟨false, [⟨"Hex", "H", 42, "Hexose", "", "Monosaccharide"⟩]⟩ := by
  decide

/-- Claim C1 (amended): the peak table is never modified and, on any
non-raising call, the caller's reference table is returned unchanged whenever
`use_mods` or `use_b_y` is set (the local name is rebound to a fresh frame),
or `length ≤ 1`, or fewer than two peaks are given; but when both flags are
off, `length > 1` and at least two peaks exist, the caller's table comes back
with its `Name` column moved into the index — the analysis is not effect-free
on its inputs. -/
theorem c1_amended (df : List PPeak) (m : MonoTable) (tol : ℚ) (len : ℕ)
    (um uby : Bool) (res : Option AnalysisResult × MonoTable)
    (hok : analyse_spectrum df m tol len um uby = .ok res) :
    ((um = true ∨ uby = true ∨ len ≤ 1 ∨ df.length < 2) → res.2 = m) ∧
      (um = false → uby = false → 1 < len → 2 ≤ df.length →
        res.2 = ⟨true, m.rows⟩) := by
  unfold analyse_spectrum at hok
  dsimp only at hok
  by_cases hdata : diffData df (monoForRun m um uby).rows tol = []
  · rw [if_pos hdata] at hok
    simp only [Except.ok.injEq] at hok
    have hlen2 : df.length < 2 := (diffData_eq_nil_iff _ _ _).mp hdata
    constructor
    · intro _
      rw [← hok]
    · intro _ _ _ h4
      omega
  · rw [if_neg hdata] at hok
    split at hok
    · simp at hok
    · rename_i u a2 un ma heq
      simp only [Except.ok.injEq] at hok
      have hres2 : res.2 = callerMono m ma um uby := by rw [← hok]
      have hma := assign_ok_mono _ _ _ _ _ _ _ _ heq
      constructor
      · rintro (h | h | h | h)
        · rw [hres2]
          unfold callerMono
          rw [h]
          simp
        · rw [hres2]
          unfold callerMono
          rw [h]
          simp
        · rw [hres2]
          unfold callerMono
          rcases hb : um || uby with _ | _
          · simp only [Bool.false_eq_true, if_false]
            have := hma.2 (by omega)
            rw [this]
            rcases Bool.or_eq_false_iff.mp hb with ⟨h1, h2⟩
            rw [h1, h2]
            rfl
          · simp
        · exact absurd ((diffData_eq_nil_iff _ _ _).mpr h) hdata
      · intro h1 h2 h3 _
        rw [hres2]
        unfold callerMono
        rw [h1, h2]
        simp only [Bool.or_self, Bool.false_eq_true, if_false]
        have := (hma.1 h3).1
        rw [h1, h2] at this
        exact this

/-- Concrete instantiation of `c1_amended`: two peaks, `length = 2`, both
flags off — the returned reference-table state has `indexIsName = true`. -/
theorem c1_witness :
    ((some (AnalysisResult.mk
        [⟨100, 142, 42, 42, "Hex", "H", "", "Monosaccharide", 1⟩]
        [⟨100, 142, 42, 42, "Hex", "H", "", "Monosaccharide", 1⟩]
        [] []),
      (⟨true, [⟨"Hex", "H", 42, "Hexose", "", "Monosaccharide"⟩]⟩ : MonoTable)) :
        Option AnalysisResult × MonoTable).2 =
      ⟨true, [⟨"Hex", "H", 42, "Hexose", "", "Monosaccharide"⟩]⟩ :=
  (c1_amended [⟨100, 10, some 1⟩, ⟨142, 9, none⟩]
      ⟨false, [⟨"Hex", "H", 42, "Hexose", "", "Monosaccharide"⟩]⟩ 1 2 false false
      (some (AnalysisResult.mk
        [⟨100, 142, 42, 42, "Hex", "H", "", "Monosaccharide", 1⟩]
        [⟨100, 142, 42, 42, "Hex", "H", "", "Monosaccharide", 1⟩]
        [] []),
      ⟨true, [⟨"Hex", "H", 42, "Hexose", "", "Monosaccharide"⟩]⟩)
      rfl).2 rfl rfl (by omega) (by decide)

/-! ## Claim C9: monotonicity in the chain-length ceiling -/

theorem except_bind_ok {α β : Type} {x : Except String α} {f : α → Except String β}
    {b : β} (h : (x >>= f) = .ok b) : ∃ a, x = .ok a ∧ f a = .ok b := by
  rcases x with e | a
  · rw [show ((Except.error e : Except String α) >>= f) = Except.error e from rfl] at h
    exact absurd h (by simp)
  · exact ⟨a, rfl, by rwa [show ((Except.ok a : Except String α) >>= f) = f a from rfl] at h⟩

/-- The tuple list generated at a higher ceiling extends the one generated at
a lower ceiling: chain lengths `2..L` come first, then `L+1..L'`. -/
theorem polyTuples_append (alph : List String) {L L' : ℕ} (h1 : 1 ≤ L) (h2 : L ≤ L') :
    polyTuples alph L' =
      polyTuples alph L ++ (List.range' (L + 1) (L' - L)).flatMap (fun r => cwr r alph) := by
  unfold polyTuples
  rw [← List.flatMap_append]
  congr 1
  have hs : L + 1 = 2 + (L - 1) := by omega
  have hn : L' - 1 = (L' - L) + (L - 1) := by omega
  rw [hs, List.range'_append_1, ← hn]

theorem foldl_min_le_init (l : List ℚ) : ∀ z : ℚ, l.foldl min z ≤ z := by
  induction l with
  | nil => exact fun z => le_refl z
  | cons y ys ih => exact fun z => le_trans (ih (min z y)) (min_le_left z y)

theorem colMin_append_le {l1 : List ℚ} (l2 : List ℚ) (h : l1 ≠ []) :
    colMin (l1 ++ l2) ≤ colMin l1 := by
  rcases l1 with _ | ⟨x, xs⟩
  · exact absurd rfl h
  · show colMin (x :: (xs ++ l2)) ≤ colMin (x :: xs)
    simp only [colMin]
    rw [List.foldl_append]
    exact foldl_min_le_init l2 _

theorem find?_append_some {p : α → Bool} {l1 : List α} (l2 : List α) {e : α}
    (h : l1.find? p = some e) : (l1 ++ l2).find? p = some e := by
  rw [List.find?_append, h]
  rfl

/-- A record the loop assigned from the generated table keeps the same
assignment when the table is extended on the right: the guard only weakens
(the minimum over more rows is no larger) and the first match sits in the
common front segment. -/
theorem assignRecord_mono (polyT rest : List PolyEntry) (tol : ℚ) (x : DiffRec)
    (h : (assignRecord polyT tol x).assignedMass ≠ 0) :
    assignRecord (polyT ++ rest) tol x = assignRecord polyT tol x := by
  by_cases h0 : x.assignedMass ≠ 0
  · unfold assignRecord
    rw [if_pos h0, if_pos h0]
  · by_cases hguard : colMin (polyT.map PolyEntry.mz) ≤ x.peakDifference
    · rcases hf : polyT.find? (fun e => decide (|e.mz - x.peakDifference| < tol)) with _ | e
      · have hid : assignRecord polyT tol x = x := by
          unfold assignRecord
          rw [if_neg h0, if_pos hguard, hf]
        rw [hid] at h
        exact absurd h h0
      · have hne : polyT ≠ [] := by
          rintro rfl
          simp at hf
        have hguard' : colMin ((polyT ++ rest).map PolyEntry.mz) ≤ x.peakDifference := by
          rw [List.map_append]
          exact le_trans (colMin_append_le _ (by simpa using hne)) hguard
        have hR : assignRecord polyT tol x =
            { x with assigned := e.name, assignedSymbol := e.symbol, assignedMass := e.mz,
                     ionType := e.ionType, length := e.plen, type := e.type } := by
          unfold assignRecord
          rw [if_neg h0, if_pos hguard, hf]
        have hL : assignRecord (polyT ++ rest) tol x =
            { x with assigned := e.name, assignedSymbol := e.symbol, assignedMass := e.mz,
                     ionType := e.ionType, length := e.plen, type := e.type } := by
          unfold assignRecord
          rw [if_neg h0, if_pos hguard', find?_append_some _ hf]
        rw [hL, hR]
    · have hid : assignRecord polyT tol x = x := by
        unfold assignRecord
        rw [if_neg h0, if_neg hguard]
      rw [hid] at h
      exact absurd h h0

/-- Shape of a successful `assign_polysaccharides` run at `length > 1`,
keeping the `generate_polysaccharides` equation. -/
theorem assign_ok_gt1 {diffs : List DiffRec} {m : MonoTable} {len : ℕ} {tol : ℚ}
    {u a2 un : List DiffRec} {ma : MonoTable} (hlen : 1 < len)
    (hok : assign_polysaccharides diffs m len tol = .ok (u, a2, un, ma)) :
    ∃ polyT m1,
      generate_polysaccharides m (alphabetOf diffs) len = .ok (polyT, m1) ∧
      u = diffs.map (assignRecord polyT tol) ∧
      a2 = u.filter (fun r => decide (r.assignedMass ≠ 0)) ∧
      un = u.filter (fun r => decide (r.assignedMass = 0)) := by
  unfold assign_polysaccharides at hok
  rw [if_pos hlen] at hok
  split at hok
  · simp at hok
  · rename_i polyT m1 hgen
    split at hok
    · simp at hok
    · simp only [Except.ok.injEq, Prod.mk.injEq] at hok
      obtain ⟨h1, h2, h3, -⟩ := hok
      exact ⟨polyT, m1, hgen, h1.symm, by rw [← h1, ← h2], by rw [← h1, ← h3]⟩

/-- Shape of `assign_polysaccharides` at `length ≤ 1`: the records come back
untouched and are merely partitioned. -/
theorem assign_ok_le1 {diffs : List DiffRec} {m : MonoTable} {len : ℕ} {tol : ℚ}
    {u a2 un : List DiffRec} {ma : MonoTable} (hlen : ¬ 1 < len)
    (hok : assign_polysaccharides diffs m len tol = .ok (u, a2, un, ma)) :
    u = diffs ∧
    a2 = diffs.filter (fun r => decide (r.assignedMass ≠ 0)) ∧
    un = diffs.filter (fun r => decide (r.assignedMass = 0)) := by
  unfold assign_polysaccharides at hok
  rw [if_neg hlen] at hok
  simp only [Except.ok.injEq, Prod.mk.injEq] at hok
  exact ⟨hok.1.symm, hok.2.1.symm, hok.2.2.1.symm⟩

theorem generate_ok_entries {m : MonoTable} {alph : List String} {len : ℕ}
    {pT : List PolyEntry} {mg : MonoTable}
    (hok : generate_polysaccharides m alph len = .ok (pT, mg)) :
    (polyTuples alph len).mapM (polyOfTuple m.rows) = .ok pT := by
  unfold generate_polysaccharides at hok
  split at hok
  · simp at hok
  · split at hok
    · simp at hok
    · rename_i entries hmap
      simp only [Except.ok.injEq, Prod.mk.injEq] at hok
      rw [hmap, hok.1]

/-- Claim C9: at `max_length = 1` the polysaccharide stage adds nothing — it
returns the records unchanged and partitions them into the direct reference
matches and the rest; and for `1 ≤ L < L'`, whenever both runs succeed, every
record assigned at ceiling `L` is still assigned (identically) at ceiling
`L'`: the generated table at `L'` extends the one at `L` on the right, so the
first-match selection of every previously assigned record is unchanged. -/
theorem c9_length_monotone (diffs : List DiffRec) (m : MonoTable) (tol : ℚ)
    (L L' : ℕ) (outL outL' : List DiffRec × List DiffRec × List DiffRec × MonoTable) :
    (assign_polysaccharides diffs m 1 tol =
      .ok (diffs, diffs.filter (fun r => decide (r.assignedMass ≠ 0)),
           diffs.filter (fun r => decide (r.assignedMass = 0)), m)) ∧
    (1 ≤ L → L < L' →
      assign_polysaccharides diffs m L tol = .ok outL →
      assign_polysaccharides diffs m L' tol = .ok outL' →
      ∀ r ∈ outL.2.1, r ∈ outL'.2.1) := by
  constructor
  · rfl
  · intro hL hLL' hokL hokL'
    obtain ⟨uL, a2L, unL, maL⟩ := outL
    obtain ⟨uL', a2L', unL', maL'⟩ := outL'
    dsimp only
    have hL'1 : 1 < L' := by omega
    obtain ⟨pL', m1', hgenL', huL', ha2L', -⟩ := assign_ok_gt1 hL'1 hokL'
    by_cases hL1 : 1 < L
    · obtain ⟨pL, m1, hgenL, huL, ha2L, -⟩ := assign_ok_gt1 hL1 hokL
      have hmapL := generate_ok_entries hgenL
      have hmapL' := generate_ok_entries hgenL'
      rw [polyTuples_append (alphabetOf diffs) hL (le_of_lt hLL'),
        List.mapM_append] at hmapL'
      obtain ⟨a, ha, hrest⟩ := except_bind_ok hmapL'
      obtain ⟨b, hb, hpure⟩ := except_bind_ok hrest
      have hapL : a = pL := by
        rw [hmapL] at ha
        exact (Except.ok.injEq _ _).mp ha.symm
      have hpL' : pL' = pL ++ b := by
        have : (pure (a ++ b) : Except String (List PolyEntry)) = .ok (a ++ b) := rfl
        rw [this] at hpure
        have := (Except.ok.injEq _ _).mp hpure
        rw [← this, hapL]
      intro r hr
      rw [ha2L, huL] at hr
      obtain ⟨hru, hrmass⟩ := List.mem_filter.mp hr
      obtain ⟨x, hx, hfx⟩ := List.mem_map.mp hru
      have hmass : (assignRecord pL tol x).assignedMass ≠ 0 := by
        rw [hfx]
        exact of_decide_eq_true hrmass
      have hsame : assignRecord pL' tol x = r := by
        rw [hpL', assignRecord_mono pL b tol x hmass, hfx]
      rw [ha2L', huL']
      exact List.mem_filter.mpr ⟨List.mem_map.mpr ⟨x, hx, hsame⟩, hrmass⟩
    · obtain ⟨huL, ha2L, -⟩ := assign_ok_le1 hL1 hokL
      intro r hr
      rw [ha2L] at hr
      obtain ⟨hrd, hrmass⟩ := List.mem_filter.mp hr
      have hrm : r.assignedMass ≠ 0 := of_decide_eq_true hrmass
      have hskip : assignRecord pL' tol r = r := by
        unfold assignRecord
        rw [if_pos hrm]
      rw [ha2L', huL']
      exact List.mem_filter.mpr ⟨List.mem_map.mpr ⟨r, hrd, hskip⟩, hrmass⟩

/-- Concrete instantiation of `c9_length_monotone`: one directly assigned
record, ceilings `L = 1 < L' = 2` — the record stays assigned. -/
theorem c9_witness :
    (⟨100, 142, 42, 42, "Hex", "H", "", "Monosaccharide", 1⟩ : DiffRec) ∈
      (([⟨100, 142, 42, 42, "Hex", "H", "", "Monosaccharide", 1⟩],
        ([(⟨100, 142, 42, 42, "Hex", "H", "", "Monosaccharide", 1⟩ : DiffRec)],
         ([] : List DiffRec),
         (⟨true, [⟨"Hex", "H", 42, "Hexose", "", "Monosaccharide"⟩]⟩ : MonoTable))) :
        List DiffRec × List DiffRec × List DiffRec × MonoTable).2.1 :=
  (c9_length_monotone [⟨100, 142, 42, 42, "Hex", "H", "", "Monosaccharide", 1⟩]
      ⟨false, [⟨"Hex", "H", 42, "Hexose", "", "Monosaccharide"⟩]⟩ 1 1 2
      ([⟨100, 142, 42, 42, "Hex", "H", "", "Monosaccharide", 1⟩],
       [⟨100, 142, 42, 42, "Hex", "H", "", "Monosaccharide", 1⟩], [],
       ⟨false, [⟨"Hex", "H", 42, "Hexose", "", "Monosaccharide"⟩]⟩)
      ([⟨100, 142, 42, 42, "Hex", "H", "", "Monosaccharide", 1⟩],
       [⟨100, 142, 42, 42, "Hex", "H", "", "Monosaccharide", 1⟩], [],
       ⟨true, [⟨"Hex", "H", 42, "Hexose", "", "Monosaccharide"⟩]⟩)).2
    (by omega) (by omega) rfl rfl
    ⟨100, 142, 42, 42, "Hex", "H", "", "Monosaccharide", 1⟩ (by decide)

/-! ## Claim C5: a disconnected match graph raises instead of degrading -/

theorem mem_neighborsOf {es : List (ℚ × ℚ)} {v w : ℚ}
    (h : w ∈ neighborsOf es v) : Adj es v w := by
  obtain ⟨e, he, hfe⟩ := List.mem_filterMap.mp h
  by_cases h1 : e.1 = v
  · rw [if_pos h1] at hfe
    have : e.2 = w := Option.some_inj.mp hfe
    left
    have : e = (v, w) := by
      rw [← h1, ← this]
    rwa [← this]
  · rw [if_neg h1] at hfe
    by_cases h2 : e.2 = v
    · rw [if_pos h2] at hfe
      have : e.1 = w := Option.some_inj.mp hfe
      right
      have : e = (w, v) := by
        rw [← h2, ← this]
      rwa [← this]
    · rw [if_neg h2] at hfe
      exact absurd hfe (by simp)

/-- Queue invariant preservation: every path the search returns really is a
walk from the source to the target. -/
theorem bfsAux_sound (es : List (ℚ × ℚ)) (target s : ℚ) :
    ∀ (fuel : ℕ) (queue : List (List ℚ)) (visited : List ℚ) (r : List ℚ),
      bfsAux es target fuel queue visited = some r →
      (∀ p ∈ queue, p ≠ [] ∧ p.getLast? = some s ∧
        p.Chain' (fun a b => Adj es b a)) →
      IsGraphPath es s target r := by
  intro fuel
  induction fuel with
  | zero =>
    intro queue visited r hr _
    exact absurd hr (by simp [bfsAux])
  | succ fuel ih =>
    intro queue visited r hr hinv
    rcases queue with _ | ⟨p, queue'⟩
    · exact absurd hr (by simp [bfsAux])
    · rcases hp : p with _ | ⟨v, rest⟩
      · have := (hinv p (List.mem_cons_self p queue')).1
        rw [hp] at this
        exact absurd rfl this
      · rw [hp] at hr hinv
        unfold bfsAux at hr
        dsimp only at hr
        by_cases hv : v = target
        · rw [if_pos hv] at hr
          have hrrev : (v :: rest).reverse = r := Option.some_inj.mp hr
          obtain ⟨-, hlast, hchain⟩ := hinv (v :: rest) (List.mem_cons_self _ _)
          refine ⟨?_, ?_, ?_⟩
          · rw [← hrrev, List.head?_reverse]
            exact hlast
          · rw [← hrrev, List.getLast?_reverse]
            simp [hv]
          · rw [← hrrev]
            exact List.chain'_reverse.mpr hchain
        · rw [if_neg hv] at hr
          refine ih _ _ r hr ?_
          intro q hq
          rcases List.mem_append.mp hq with hq1 | hq2
          · exact hinv q (List.mem_cons_of_mem _ hq1)
          · obtain ⟨w, hw, hwq⟩ := List.mem_map.mp hq2
            have hwn : w ∈ neighborsOf es v := (List.mem_filter.mp hw).1
            have hadj : Adj es v w := mem_neighborsOf hwn
            obtain ⟨-, hlast, hchain⟩ := hinv (v :: rest) (List.mem_cons_self _ _)
            refine ⟨by rw [← hwq]; exact List.cons_ne_nil w _, ?_, ?_⟩
            · rw [← hwq, List.getLast?_cons_cons]
              exact hlast
            · rw [← hwq]
              exact List.chain'_cons.mpr ⟨hadj, hchain⟩

theorem bfsPath_sound {es : List (ℚ × ℚ)} {s t : ℚ} {p : List ℚ}
    (h : bfsPath es s t = some p) : IsGraphPath es s t p := by
  refine bfsAux_sound es t s _ _ _ p h ?_
  intro q hq
  have hqs : q = [s] := by simpa using hq
  subst hqs
  exact ⟨List.cons_ne_nil s [], rfl, List.chain'_singleton s⟩

/-- Claim C5 (counterexample): two assigned records `(0, 1)` and `(10, 11)`
form a graph whose extreme nodes `11` and `0` lie in different components;
`plot_peak_diff_graph` propagates `NetworkXNoPath` instead of producing an
un-highlighted figure. -/
theorem c5_counterexample :
    plot_peak_diff_graph
        [⟨0, 1, 1, 1, "a", "a", "", "Monosaccharide", 1⟩,
         ⟨10, 11, 1, 1, "a", "a", "", "Monosaccharide", 1⟩] =
      .error "NetworkXNoPath" := rfl

/-- Claim C5 (amended): when the extreme-mass nodes of the assigned-difference
graph lie in different connected components (no walk joins them),
`plot_peak_diff_graph` does **not** terminate normally with an un-highlighted
figure — the uncaught `nx.shortest_path` exception `NetworkXNoPath`
propagates and no graph output is produced. -/
theorem c5_amended (records : List DiffRec) (hne : records ≠ [])
    (hnodes : nodesOf records ≠ [])
    (hnopath : ∀ l : List ℚ,
      ¬ IsGraphPath (edgeListOf records) (largestNode records) (smallestNode records) l) :
    plot_peak_diff_graph records = .error "NetworkXNoPath" := by
  unfold plot_peak_diff_graph
  rw [if_neg hne, if_neg hnodes]
  rcases hb : bfsPath (edgeListOf records) (largestNode records) (smallestNode records)
      with _ | p
  · rfl
  · exact absurd (bfsPath_sound hb) (hnopath p)

/-- Closure argument used by `c5_witness`: every walk stays inside a set of
nodes closed under adjacency. -/
theorem chain_mem_closed (R : ℚ → ℚ → Prop) (S : List ℚ)
    (hclosed : ∀ a b, R a b → a ∈ S → b ∈ S) :
    ∀ l : List ℚ, l.Chain' R → ∀ x, l.head? = some x → x ∈ S → ∀ y ∈ l, y ∈ S := by
  intro l
  induction l with
  | nil =>
    intro _ x _ _ y hy
    exact absurd hy (List.not_mem_nil y)
  | cons a l' ih =>
    intro hchain x hx hxS y hy
    have hax : a = x := by simpa using hx
    rcases List.mem_cons.mp hy with rfl | hy'
    · exact hax ▸ hxS
    · rcases l' with _ | ⟨b, l''⟩
      · exact absurd hy' (List.not_mem_nil y)
      · have hc := List.chain'_cons.mp hchain
        have hbS : b ∈ S := hclosed a b hc.1 (hax ▸ hxS)
        exact ih hc.2 b rfl hbS y hy'

/-- Concrete instantiation of `c5_amended`: records `(1, 2)` and `(20, 21)`;
any walk from the largest node `21` stays inside the component `{20, 21}`, so
it never reaches the smallest node `1`, and the function returns the
`NetworkXNoPath` error. -/
theorem c5_witness :
    plot_peak_diff_graph
        [⟨1, 2, 1, 1, "a", "a", "", "Monosaccharide", 1⟩,
         ⟨20, 21, 1, 1, "a", "a", "", "Monosaccharide", 1⟩] =
      .error "NetworkXNoPath" := by
  refine c5_amended _ (by decide) (by decide) ?_
  intro l hpath
  obtain ⟨hhead, hlast, hchain⟩ := hpath
  have hclosed : ∀ a b,
      Adj (edgeListOf [⟨1, 2, 1, 1, "a", "a", "", "Monosaccharide", 1⟩,
        ⟨20, 21, 1, 1, "a", "a", "", "Monosaccharide", 1⟩]) a b →
      a ∈ [(20 : ℚ), 21] → b ∈ [(20 : ℚ), 21] := by
    intro a b hadj ha
    rcases hadj with h | h
    · rcases List.mem_cons.mp h with h1 | h1
      · obtain ⟨rfl, rfl⟩ := Prod.mk.injEq .. |>.mp h1
        exact absurd ha (by decide)
      · rcases List.mem_cons.mp h1 with h2 | h2
        · obtain ⟨rfl, rfl⟩ := Prod.mk.injEq .. |>.mp h2
          exact (by decide : (21 : ℚ) ∈ [(20 : ℚ), 21])
        · exact absurd h2 (List.not_mem_nil _)
    · rcases List.mem_cons.mp h with h1 | h1
      · obtain ⟨rfl, rfl⟩ := Prod.mk.injEq .. |>.mp h1
        exact absurd ha (by decide)
      · rcases List.mem_cons.mp h1 with h2 | h2
        · obtain ⟨rfl, rfl⟩ := Prod.mk.injEq .. |>.mp h2
          exact (by decide : (20 : ℚ) ∈ [(20 : ℚ), 21])
        · exact absurd h2 (List.not_mem_nil _)
  have hall := chain_mem_closed _ [(20 : ℚ), 21] hclosed l hchain _ hhead (by decide)
  have h1l : (smallestNode [⟨1, 2, 1, 1, "a", "a", "", "Monosaccharide", 1⟩,
      ⟨20, 21, 1, 1, "a", "a", "", "Monosaccharide", 1⟩]) ∈ l :=
    List.mem_of_getLast?_eq_some hlast
  have := hall _ h1l
  revert this
  decide

end Glycanaut
